import Mathlib

/-
Verification of the jpeg2heif core against its natural-language
specification.  The Go source is shallowly embedded: pure helpers become
Lean functions on `List Char` / `Int` / `Nat`, stateful components become
explicit state-passing step functions, and fallible operations return
`Option` or `Except`.  Go strings are modeled as `List Char`; Go `int`
values as `Int`; Go maps as association lists (their keys are unique,
which is proved where it matters rather than assumed).
-/

namespace Jpeg2Heif

/-- A Go string, modeled as its list of characters. -/
abbrev GStr := List Char

/-! ## Converter registry (internal/converter/registry.go)

The registry is a map `name → Converter` plus a disabled set.  A Go map
is modeled as an association list together with, where iteration matters,
an explicit iteration order (Go's `range` over a map visits keys in an
order that is intentionally randomized per iteration, so the order is an
adversarial parameter of the embedding). -/

/-- A registered converter: its name, claimed target format, and its
`CanConvert` predicate (a pure function of path and mime). -/
structure Converter where
  name : GStr
  targetFormat : GStr
  canConvert : GStr → GStr → Bool

/-- Registry state: the `registry` map (association list keyed by
converter name) and the `disabled` set (`map[string]bool` in Go, modeled
as the list of names mapped to `true`). -/
structure RegistryState where
  registry : List (GStr × Converter)
  disabled : List GStr

/-- Association-list lookup, the model of reading a Go map. -/
def mapLookup (m : List (GStr × Converter)) (k : GStr) : Option Converter :=
  match m with
  | [] => none
  | (k₀, v) :: rest => if k₀ = k then some v else mapLookup rest k

/-- `FindConverter` (registry.go): iterate over the registry map in the
order `order` (an iteration order of the Go map), skip disabled entries,
and return the first converter whose `CanConvert` holds; `none` models
the "no converter found" error return. -/
def findConverter (order : List GStr) (s : RegistryState)
    (srcPath srcMime : GStr) : Option Converter :=
  match order with
  | [] => none
  | n :: rest =>
    match mapLookup s.registry n with
    | none => findConverter rest s srcPath srcMime
    | some c =>
      if n ∈ s.disabled then findConverter rest s srcPath srcMime
      else if c.canConvert srcPath srcMime then some c
      else findConverter rest s srcPath srcMime

/-- `Enable` (registry.go): error ("converter not found") when the name
is not registered, otherwise remove it from the disabled set. -/
def enable (s : RegistryState) (name : GStr) : Except Unit RegistryState :=
  match mapLookup s.registry name with
  | none => .error ()
  | some _ => .ok { s with disabled := s.disabled.filter (fun d => d ≠ name) }

/-- `Disable` (registry.go): error ("converter not found") when the name
is not registered, otherwise add it to the disabled set. -/
def disable (s : RegistryState) (name : GStr) : Except Unit RegistryState :=
  match mapLookup s.registry name with
  | none => .error ()
  | some _ => .ok { s with disabled := name :: s.disabled }

/-- `IsEnabled` (registry.go): `return !disabled[name]` — no membership
check against the registry; the function cannot fail. -/
def isEnabled (s : RegistryState) (name : GStr) : Bool :=
  ¬ name ∈ s.disabled

/-- `JPEG2HEICConverter.Convert` quality normalization (registry.go):
`if quality <= 0 || quality > 100 { quality = 85 }`; the resulting value
is the one passed to `heif-enc -q`. -/
def jpeg2heicEncoderQuality (optsQuality : Int) : Int :=
  if optsQuality ≤ 0 ∨ optsQuality > 100 then 85 else optsQuality

/-- A concrete converter named "a" that accepts every file, used for
closed instances of the registry theorems. -/
def convA : Converter :=
  { name := ['a'], targetFormat := ['t'], canConvert := fun _ _ => true }

/-- A concrete registry holding only `convA`, nothing disabled. -/
def regA : RegistryState :=
  { registry := [(['a'], convA)], disabled := [] }

/-- An entry of the registry map is a hit for `(path, mime)` when its
key holds a converter (`mapLookup` returns it), the key is not in the
disabled set, and the converter's `CanConvert` accepts the file. -/
def enabledMatch (s : RegistryState) (path mime : GStr)
    (n : GStr) (c : Converter) : Prop :=
  mapLookup s.registry n = some c ∧ n ∉ s.disabled ∧
    c.canConvert path mime = true

/-- A second concrete converter, named "b", accepting every file. -/
def convB : Converter :=
  { name := ['b'], targetFormat := ['u'], canConvert := fun _ _ => true }

/-- A concrete registry holding `convA` and `convB`, nothing disabled. -/
def regAB : RegistryState :=
  { registry := [(['a'], convA), (['b'], convB)], disabled := [] }

/-! ## Stability (watcher checkStability tick; utils.WaitFileStable)

The watcher keeps a pending entry per candidate file holding the last
observed `(size, mtime)` and the first-seen instant.  A background tick
re-stats the file and emits a stable-file event only when the fresh
sample equals the stored one.  Sizes, modification times and instants
are modeled as `Int`; a stat result is `Option (Int × Int)` (`none` is a
stat failure, e.g. the file disappeared). -/

/-- The watcher's `pendingFile` record (path omitted: the embedding
tracks one file). -/
structure PendingFile where
  lastSize : Int
  lastModTime : Int
  firstSeen : Int

/-- Outcome of one stability tick for one pending entry. -/
inductive TickResult where
  | keep (pf : PendingFile)
  | drop
  | emit

/-- One iteration of `Watcher.checkStability` for one pending entry: if
the entry has been pending for less than the stability delay, leave it
unchanged; otherwise stat failure drops it; an unchanged `(size, mtime)`
sample emits a stable-file event; a changed sample updates the stored
state and keeps waiting. -/
def tickPending (stabilityDelay now : Int) (statResult : Option (Int × Int))
    (pf : PendingFile) : TickResult :=
  if now - pf.firstSeen < stabilityDelay then .keep pf
  else
    match statResult with
    | none => .drop
    | some (sz, mt) =>
      if sz = pf.lastSize ∧ mt = pf.lastModTime then .emit
      else .keep { pf with lastSize := sz, lastModTime := mt }

/-- Run the stability tick over a sequence of `(now, stat)` samples;
`true` iff a stable-file event is ever emitted for the entry. -/
def ticksEmit (delay : Int) (pf : PendingFile) :
    List (Int × Option (Int × Int)) → Bool
  | [] => false
  | (now, st) :: rest =>
    match tickPending delay now st pf with
    | .emit => true
    | .drop => false
    | .keep pf' => ticksEmit delay pf' rest

/-- The sizes reported by the successful stat samples of a sequence. -/
def sampleSizes (samples : List (Int × Option (Int × Int))) : List Int :=
  samples.filterMap (fun s => s.2.map Prod.fst)

/-- `utils.WaitFileStable` loop body: up to `fuel` further iterations,
`i` the sample index, `lastSize` the previously observed size (`-1`
initially).  A stat failure returns the error; a size equal to the
previous one returns success; otherwise the loop continues, and when the
five iterations are exhausted the function returns nil — success. -/
def waitFileStableAux (stat : Nat → Option Int) :
    Nat → Nat → Int → Except Unit Unit
  | 0, _, _ => .ok ()
  | fuel + 1, i, lastSize =>
    match stat i with
    | none => .error ()
    | some sz =>
      if lastSize = sz then .ok ()
      else waitFileStableAux stat fuel (i + 1) sz

/-- `utils.WaitFileStable` (part_004): five stat samples, comparing only
sizes; `.ok` means the file was judged stable. -/
def waitFileStable (stat : Nat → Option Int) : Except Unit Unit :=
  waitFileStableAux stat 5 0 (-1)

/-- A file whose size grows on every sample. -/
def growingStat : Nat → Option Int := fun i => some ((i : Int) + 1)

/-! ## Content hash (util.CalculateMD5, utils.MD5File)

Both hash helpers read the file in chunks of the configured size and
feed each chunk to the digest engine; the digest of the whole stream is
rendered in lowercase hex.  File contents are byte lists (`List Nat`,
each < 256 in practice); the digest engine itself is the Go standard
library's, outside this repository, so it is a parameter `md5` of the
embedding — the claims are about the chunking and rendering around it. -/

/-- The successive chunks read by the loop: `take n`, then recurse on
`drop n`.  A chunk size of zero would make the Go read loop spin without
progress; both call sites guarantee a positive size, and the `n = 0`
guard here only serves termination. -/
def chunkify (n : Nat) (l : List Nat) : List (List Nat) :=
  if _hn : n = 0 then []
  else
    match l with
    | [] => []
    | x :: rest => (x :: rest).take n :: chunkify n ((x :: rest).drop n)
termination_by l.length
decreasing_by
  simp only [List.length_drop, List.length_cons]
  omega

/-- The sixteen lowercase hex digits (Go's `encoding/hex` table). -/
def hexDigits : List Char :=
  ("0123456789abcdef").data

/-- One hex digit; the argument is a nibble (< 16). -/
def hexDigit (n : Nat) : Char :=
  hexDigits.getD (n % 16) '0'

/-- `hex.EncodeToString`: two lowercase digits per byte, high nibble
first. -/
def hexEncode (bytes : List Nat) : GStr :=
  bytes.flatMap (fun b => [hexDigit (b / 16 % 16), hexDigit (b % 16)])

/-- `util.CalculateMD5` (part_001): non-positive chunk sizes fall back
to 8192; the file is read chunk by chunk into the digest, and the sum is
hex-encoded. -/
def calculateMD5 (md5 : List Nat → List Nat) (content : List Nat)
    (chunkSize : Int) : GStr :=
  let cs : Nat := if chunkSize ≤ 0 then 8192 else chunkSize.toNat
  hexEncode (md5 (chunkify cs content).flatten)

/-- `utils.MD5File` (part_003): same loop without the fallback — a
non-positive chunk size makes the Go loop read zero bytes forever, which
the embedding renders as `none`. -/
def md5File (md5 : List Nat → List Nat) (content : List Nat)
    (chunkSize : Int) : Option GStr :=
  if chunkSize ≤ 0 then none
  else some (hexEncode (md5 (chunkify chunkSize.toNat content).flatten))

/-! ## Destination path derivation

`Worker.generateOutputPath` (worker.go) and `utils.TargetHEICPath`
(part_004) derive `/a/b/c/photo.jpg → /a/b/<target>/photo.<target>`.  A
clean absolute path is modeled by its list of components; `filepath.Dir`
drops the last component, `filepath.Base` is the last component,
`filepath.Join` appends, and `filepath.Ext` / `strings.TrimSuffix` work
on the basename's characters. -/

/-- Scan the reversed basename for the final dot; returns the reversed
extension (dot included), or `none` when the name has no dot — the
character-level reading of `filepath.Ext`'s backwards loop. -/
def extScan : List Char → Option (List Char)
  | [] => none
  | c :: rest =>
    if c = '.' then some [c] else (extScan rest).map (fun l => c :: l)

/-- `filepath.Ext` on a basename: the suffix beginning at the final dot,
empty if there is none. -/
def extGo (base : GStr) : GStr :=
  match extScan base.reverse with
  | none => []
  | some r => r.reverse

/-- `strings.HasSuffix`. -/
def hasSuffixG (s suffix : GStr) : Bool :=
  decide (suffix <:+ s)

/-- `strings.TrimSuffix`: drop the suffix when present, else return the
string unchanged. -/
def trimSuffixG (s suffix : GStr) : GStr :=
  if hasSuffixG s suffix then s.take (s.length - suffix.length) else s

/-- `filepath.Dir` on a component list (clean absolute path). -/
def dirP (p : List GStr) : List GStr :=
  p.dropLast

/-- `filepath.Base` on a component list. -/
def baseP : List GStr → GStr
  | [] => []
  | [x] => x
  | _ :: rest => baseP rest

/-- `Worker.generateOutputPath` (worker.go): `/a/b/c/photo.jpg` with
target `heic` becomes `/a/b/heic/photo.heic`. -/
def generateOutputPath (srcPath : List GStr) (targetFormat : GStr) :
    List GStr :=
  let dir := dirP srcPath
  let parentDir := dirP dir
  let fileName := baseP srcPath
  let baseName := trimSuffixG fileName (extGo fileName)
  let newFileName := baseName ++ '.' :: targetFormat
  let outputDir := parentDir ++ [targetFormat]
  outputDir ++ [newFileName]

/-- The string "heic". -/
def heicStr : GStr := ['h', 'e', 'i', 'c']

/-- `utils.TargetHEICPath` (part_004). -/
def targetHEICPath (src : List GStr) : List GStr :=
  let base := baseP src
  let name := trimSuffixG base (extGo base) ++ '.' :: heicStr
  let d := dirP src
  let parent := dirP d
  let outDir := parent ++ [heicStr]
  outDir ++ [name]

/-- Final-path logic of the duplicated-tree `Converter.Convert`
(worker/converter.go): when a file already exists at the derived
destination, rename with a timestamp — `<stem>_<ts>.heic` in the same
directory; otherwise use the destination as is. -/
def resolveFinalPath (destExists : Bool) (ts : GStr) (outPath : List GStr) :
    List GStr :=
  if destExists then
    let base := trimSuffixG (baseP outPath) (extGo (baseP outPath))
    dirP outPath ++ [base ++ '_' :: (ts ++ '.' :: heicStr)]
  else outPath

/-- Destination handling of the built-in `JPEG2HEICConverter.Convert`
(registry.go): the temp output is copied onto `dstPath` unconditionally
(`copyFile` → `os.Create`, which truncates an existing file); there is
no existence check and no timestamp suffix in this pipeline, so the
write target is the destination itself. -/
def jpeg2heicWritePath (_destExists : Bool) (dstPath : List GStr) :
    List GStr :=
  dstPath

/-! ## Worker per-task pipeline (worker.go Worker.processTask)

The worker state visible to one task: the file-index table (keyed by
path), the append-only task history, and the set of destination files
written.  The task's I/O outcomes — the hash computation, a database
read failure, the registry lookup, and the conversion — are inputs of
the step function (`ConvEnv`).  `processTask` returns the new state and
whether the converter was invoked. -/

/-- A path handled by the worker, as its component list. -/
abbrev WPath := List GStr

/-- `db.FileIndex` (fields used by the worker). -/
structure FileIndex where
  filePath : WPath
  fileMD5 : GStr
  status : GStr
  converterName : GStr
  metadataPreserved : Bool
  metadataSummary : GStr
deriving DecidableEq

/-- `db.TaskHistory` (fields used by the worker). -/
structure TaskHistory where
  filePath : WPath
  converterName : GStr
  status : GStr
  errorMessage : GStr
  durationMs : Int
  consoleOutput : GStr
deriving DecidableEq

/-- Worker-visible persistent state plus the destination files created. -/
structure WState where
  index : List (WPath × FileIndex)
  history : List TaskHistory
  destFiles : List WPath
deriving DecidableEq

/-- `converter.MetaResult`. -/
structure MetaResult where
  metadataPreserved : Bool
  metadataSummary : GStr
  conversionLog : GStr

/-- The I/O outcomes a single task run can observe: the hash of the
file's bytes (`none` = read error), whether the index read failed, the
registry lookup result (with the converter's name and target format),
and the conversion result (`error` carries the message and the captured
conversion log). -/
structure ConvEnv where
  md5Result : Option GStr
  dbGetFails : Bool
  findResult : Option Converter
  convertResult : Except (GStr × GStr) MetaResult
  durMs : Int

def successStr : GStr := ("success").data
def processingStr : GStr := ("processing").data
def failedStr : GStr := ("failed").data
def skippedStr : GStr := ("skipped").data

/-- `db.GetFileIndex`: lookup by path. -/
def idxLookup (m : List (WPath × FileIndex)) (k : WPath) : Option FileIndex :=
  match m with
  | [] => none
  | (k₀, v) :: rest => if k₀ = k then some v else idxLookup rest k

/-- `db.UpsertFileIndex`: replace the entry keyed by the record's path,
or insert it. -/
def idxUpsert (m : List (WPath × FileIndex)) (e : FileIndex) :
    List (WPath × FileIndex) :=
  match m with
  | [] => [(e.filePath, e)]
  | (k, v) :: rest =>
    if k = e.filePath then (k, e) :: rest else (k, v) :: idxUpsert rest e

/-- The failure console output: the error alone when there is no
conversion log, else the log followed by the final error summary (the
decorative frame of the Go format string is immaterial and omitted). -/
def failureConsole (convLog errMsg : GStr) : GStr :=
  if convLog = [] then ("Error: ").data ++ errMsg
  else convLog ++ ("\n\nFINAL ERROR SUMMARY\nError: ").data ++ errMsg

/-- `Worker.recordFailure`: upsert the index entry as `failed` with the
(re)computed hash, and append a failed task record. -/
def recordFailure (s : WState) (path : WPath) (converterName : GStr)
    (md5Hash : GStr) (errMsg : GStr) (durMs : Int) (convLog : GStr) :
    WState :=
  { s with
    index := idxUpsert s.index
      { filePath := path, fileMD5 := md5Hash, status := failedStr,
        converterName := converterName, metadataPreserved := false,
        metadataSummary := [] },
    history := s.history ++
      [{ filePath := path, converterName := converterName,
         status := failedStr, errorMessage := errMsg, durationMs := durMs,
         consoleOutput := failureConsole convLog errMsg }] }

/-- `Worker.recordSkipped`: append one skipped task record; the index is
not touched. -/
def recordSkipped (s : WState) (path : WPath) (converterName : GStr)
    (durMs : Int) (reason : GStr) : WState :=
  { s with
    history := s.history ++
      [{ filePath := path, converterName := converterName,
         status := skippedStr, errorMessage := [], durationMs := durMs,
         consoleOutput := ("Task skipped: ").data ++ reason }] }

/-- The skip test of `processTask`: an existing entry with status
`success` and the same content hash. -/
def alreadyProcessed (existing : Option FileIndex) (md5Hash : GStr) : Bool :=
  match existing with
  | some e => e.status = successStr ∧ e.fileMD5 = md5Hash
  | none => false

/-- `Worker.processTask` (worker.go): hash, dedup check, registry
lookup, upsert `processing`, derive the output path, convert, then
record the outcome.  The returned flag is true iff the converter's
`Convert` was invoked. -/
def processTask (env : ConvEnv) (s : WState) (path : WPath) :
    WState × Bool :=
  match env.md5Result with
  | none => (recordFailure s path [] [] ("md5 error").data env.durMs [], false)
  | some md5Hash =>
    if env.dbGetFails then
      (recordFailure s path [] md5Hash ("database error").data env.durMs [],
        false)
    else
      let existing := idxLookup s.index path
      if alreadyProcessed existing md5Hash then
        (recordSkipped s path
          ((existing.map FileIndex.converterName).getD []) env.durMs
          ("File already processed successfully").data, false)
      else
        match env.findResult with
        | none =>
          (recordFailure s path [] md5Hash ("no converter found").data
            env.durMs [], false)
        | some conv =>
          let fi1 : FileIndex :=
            { filePath := path, fileMD5 := md5Hash, status := processingStr,
              converterName := conv.name, metadataPreserved := false,
              metadataSummary := [] }
          let s1 := { s with index := idxUpsert s.index fi1 }
          let outputPath := generateOutputPath path conv.targetFormat
          match env.convertResult with
          | .error (errMsg, convLog) =>
            (recordFailure s1 path conv.name md5Hash errMsg env.durMs convLog,
              true)
          | .ok res =>
            let fi2 := { fi1 with
              status := successStr
              metadataPreserved := res.metadataPreserved
              metadataSummary := res.metadataSummary }
            ({ s1 with
               index := idxUpsert s1.index fi2,
               history := s1.history ++
                 [{ filePath := path, converterName := conv.name,
                    status := successStr, errorMessage := [],
                    durationMs := env.durMs,
                    consoleOutput := res.conversionLog }],
               destFiles := s1.destFiles ++ [outputPath] }, true)

/-- The successful index entry used by the C1 witness. -/
def eSucc : FileIndex :=
  { filePath := [['p']]
    fileMD5 := ['h']
    status := successStr
    converterName := ['a']
    metadataPreserved := true
    metadataSummary := [] }

/-- The worker state used by the C1 witness: one successful entry. -/
def sSucc : WState :=
  { index := [([['p']], eSucc)]
    history := []
    destFiles := [] }

/-- A trivial successful conversion result for the C1 witness. -/
def mrOk : MetaResult :=
  { metadataPreserved := true
    metadataSummary := []
    conversionLog := [] }

/-- The task environment used by the C1 witness: the fresh hash equals
the stored one. -/
def envSkip : ConvEnv :=
  { md5Result := some ['h']
    dbGetFails := false
    findResult := some convA
    convertResult := .ok mrOk
    durMs := 7 }

/-- The skipped task record the C1 witness expects. -/
def skippedRec : TaskHistory :=
  { filePath := [['p']]
    converterName := ['a']
    status := skippedStr
    errorMessage := []
    durationMs := 7
    consoleOutput := ("Task skipped: ").data ++
      ("File already processed successfully").data }

/-! ## Task queue (worker Queue, de-duplicating by FileIndex ID) -/

/-- Queue state: the `enqueued` set (keys of the Go `map[uint]struct{}`,
kept as a list — uniqueness is proved, not assumed), the `accepting`
flag, and the contents of the buffered channel `ch`. -/
structure QueueState where
  enqueued : List Nat
  accepting : Bool
  ch : List Nat

/-- `NewQueue`: empty set, accepting, empty channel. -/
def newQueue : QueueState :=
  { enqueued := [], accepting := true, ch := [] }

/-- `Queue.Enqueue`: refuse when not accepting or when the ID is already
enqueued; otherwise record the ID and push it onto the channel.  Returns
the new state and the Go function's boolean result. -/
def qEnqueue (s : QueueState) (id : Nat) : QueueState × Bool :=
  if ¬ s.accepting then (s, false)
  else if id ∈ s.enqueued then (s, false)
  else ({ s with enqueued := s.enqueued ++ [id], ch := s.ch ++ [id] }, true)

/-- `Queue.Dequeued`: `delete(q.enqueued, id)` — remove the key from the
map (on a list of unique keys, removing every occurrence). -/
def qDequeued (s : QueueState) (id : Nat) : QueueState :=
  { s with enqueued := s.enqueued.filter (fun x => x ≠ id) }

/-- `Queue.StopAccepting`. -/
def qStop (s : QueueState) : QueueState :=
  { s with accepting := false }

/-- `Queue.Len`: `len(q.enqueued)`. -/
def qLen (s : QueueState) : Nat :=
  s.enqueued.length

/-- One client operation on the queue. -/
inductive QOp where
  | enq (id : Nat)
  | deq (id : Nat)
  | stop

/-- Apply one operation to the queue state. -/
def qStep (s : QueueState) (op : QOp) : QueueState :=
  match op with
  | .enq id => (qEnqueue s id).1
  | .deq id => qDequeued s id
  | .stop => qStop s

/-- The state reached from `newQueue` by a sequence of operations. -/
def qRun (ops : List QOp) : QueueState :=
  ops.foldl qStep newQueue

/-! ## Workflow spec validation (internal/workflow/executor.go)

`WorkflowSpec.Validate` appends one message per violated rule to a
growing slice and returns the whole slice.  The embedding computes the
same list as a concatenation of the per-rule contributions in the same
order.  Error messages are Lean strings; `\x27` is an apostrophe and
`\x7b` an opening brace. -/

/-- The opening brace character. -/
def lbrace : Char := Char.ofNat 123

/-- The closing brace character. -/
def rbrace : Char := Char.ofNat 125

/-- `can_convert` block of a workflow spec. -/
structure CanConvertSpec where
  extensions : List String
  run : String
  ccTimeout : Int
deriving DecidableEq

/-- One workflow step (fields used by validation). -/
structure Step where
  stepName : String
  run : String
  workdir : String
  stepTimeout : Int
deriving DecidableEq

/-- `WorkflowSpec` (fields used by validation; `outputs` is a Go map,
kept as an association list in some iteration order). -/
structure WorkflowSpec where
  name : String
  runsOn : String
  timeout : Int
  canConvert : Option CanConvertSpec
  steps : List Step
  outputs : List (String × String)
deriving DecidableEq

/-- `isValidName`: the regex `^[a-zA-Z0-9_-]+$`. -/
def isValidNameChar (c : Char) : Bool :=
  ('a' ≤ c ∧ c ≤ 'z') ∨ ('A' ≤ c ∧ c ≤ 'Z') ∨ ('0' ≤ c ∧ c ≤ '9') ∨
    c = '_' ∨ c = '-'

def isValidName (name : String) : Bool :=
  ¬ name.data.isEmpty ∧ name.data.all isValidNameChar

/-- `strings.HasPrefix(ext, ".")`. -/
def startsWithDot (ext : String) : Bool :=
  match ext.data with
  | '.' :: _ => true
  | _ => false

/-- `strings.Contains(value, "\x7b\x7b")`. -/
def containsOpenBraces (v : String) : Bool :=
  decide ([lbrace, lbrace] <:+: v.data)

def msgNameRequired : String := "workflow name is required"
def msgNamePattern : String :=
  "workflow name must be alphanumeric with hyphens/underscores"
def msgRunsOn : String := "runs-on must be \x27shell\x27 or \x27docker\x27"
def msgTimeout : String := "timeout must be non-negative"
def msgCCEither : String :=
  "can_convert: must specify either \x27extensions\x27 or \x27run\x27"
def msgCCBoth : String :=
  "can_convert: cannot specify both \x27extensions\x27 and \x27run\x27, choose one"
def msgCCTimeout : String := "can_convert: timeout must be non-negative"
def msgStepsRequired : String := "at least one step is required"

def msgExt (i : Nat) (ext : String) : String :=
  "can_convert: extensions[" ++ toString i ++
    "] should start with \x27.\x27 (got \x27" ++ ext ++ "\x27)"

def msgStepName (i : Nat) : String :=
  "step " ++ toString i ++ ": name is required"

def msgStepRun (i : Nat) (name : String) : String :=
  "step " ++ toString i ++ " (" ++ name ++ "): run command is required"

def msgStepTimeout (i : Nat) (name : String) : String :=
  "step " ++ toString i ++ " (" ++ name ++ "): timeout must be non-negative"

def msgOutput (key : String) : String :=
  "output \x27" ++ key ++ "\x27: value should contain template variable"

/-- The indexed extension loop of `Validate`. -/
def extErrs : Nat → List String → List String
  | _, [] => []
  | i, e :: rest =>
    (if startsWithDot e then [] else [msgExt i e]) ++ extErrs (i + 1) rest

/-- The indexed step loop of `Validate`. -/
def stepErrs : Nat → List Step → List String
  | _, [] => []
  | i, st :: rest =>
    (if st.stepName = "" then [msgStepName i] else []) ++
    (if st.run = "" then [msgStepRun i st.stepName] else []) ++
    (if st.stepTimeout < 0 then [msgStepTimeout i st.stepName] else []) ++
    stepErrs (i + 1) rest

/-- The outputs loop of `Validate`. -/
def outputErrs : List (String × String) → List String
  | [] => []
  | (k, v) :: rest =>
    (if containsOpenBraces v then [] else [msgOutput k]) ++ outputErrs rest

/-- The `can_convert` block of `Validate` (errors only; the in-place
default of the probe timeout does not contribute a message). -/
def canConvertErrs (cc : CanConvertSpec) : List String :=
  (if cc.extensions.isEmpty ∧ cc.run = "" then [msgCCEither] else []) ++
  (if ¬ cc.extensions.isEmpty ∧ cc.run ≠ "" then [msgCCBoth] else []) ++
  (if ¬ cc.extensions.isEmpty then extErrs 0 cc.extensions else []) ++
  (if cc.run ≠ "" ∧ cc.ccTimeout < 0 then [msgCCTimeout] else [])

/-- `WorkflowSpec.Validate` (executor.go): the full list of rule
violations, one message per violated rule, in source order.  The
`runs-on` default is applied before its check, as in the Go code. -/
def validate (spec : WorkflowSpec) : List String :=
  let runsOn := if spec.runsOn = "" then "shell" else spec.runsOn
  (if spec.name = "" then [msgNameRequired] else []) ++
  (if ¬ isValidName spec.name then [msgNamePattern] else []) ++
  (if runsOn ≠ "shell" ∧ runsOn ≠ "docker" then [msgRunsOn] else []) ++
  (if spec.timeout < 0 then [msgTimeout] else []) ++
  (match spec.canConvert with
   | none => []
   | some cc => canConvertErrs cc) ++
  (if spec.steps.isEmpty then [msgStepsRequired] else []) ++
  stepErrs 0 spec.steps ++
  outputErrs spec.outputs

/-- The concrete spec of the scenario: empty name, empty steps, and a
`can_convert` with both an extensions list and a run command. -/
def specBothCC : WorkflowSpec :=
  { name := ""
    runsOn := ""
    timeout := 0
    canConvert := some { extensions := [".png"], run := "true", ccTimeout := 0 }
    steps := []
    outputs := [] }

/-! ## Variable substitution (Executor.replaceVariables, executor.go)

`replaceVariables` applies the regex `\x7b\x7b([A-Z_][A-Z0-9_]*)\x7d\x7d`
with `ReplaceAllStringFunc`: each (leftmost, non-overlapping) match is
replaced through the callback — the shell-escaped bound value when the
name is in the variable map, the match itself otherwise — and everything
between matches is copied verbatim.  The embedding is a character
scanner with exactly the regex's leftmost-match semantics; since the
name class excludes braces, the regex needs no backtracking and the
greedy scanner is equivalent. -/

/-- The single-quote character. -/
def squote : Char := Char.ofNat 39

/-- The backslash character. -/
def bslash : Char := Char.ofNat 92

/-- `[A-Z_]`, the first character of a placeholder name. -/
def isNameStart (c : Char) : Bool :=
  ('A' ≤ c ∧ c ≤ 'Z') ∨ c = '_'

/-- `[A-Z0-9_]`, the remaining characters of a placeholder name. -/
def isNameBody (c : Char) : Bool :=
  ('A' ≤ c ∧ c ≤ 'Z') ∨ ('0' ≤ c ∧ c ≤ '9') ∨ c = '_'

/-- Expect the second closing brace. -/
def takeClose : List Char → Option (List Char × List Char)
  | r :: rest2 => if r = rbrace then some ([], rest2) else none
  | [] => none

def takeName : List Char → Option (List Char × List Char)
  | [] => none
  | c :: rest =>
    if isNameBody c then (takeName rest).map (fun p => (c :: p.1, p.2))
    else if c = rbrace then takeClose rest
    else none

/- `takeName`: after the opening braces and the first name character,
consume the rest of the name greedily, then require the two closing
braces; returns the name tail and the remainder after the match. -/

/-- Parse `NAME\x7d\x7d` right after the opening braces: the name and
the remainder, or `none` when the regex does not match here. -/
def parseToken : List Char → Option (List Char × List Char)
  | [] => none
  | c :: rest =>
    if isNameStart c then (takeName rest).map (fun p => (c :: p.1, p.2))
    else none

theorem takeName_split :
    ∀ (l n r : List Char), takeName l = some (n, r) →
      l = n ++ rbrace :: rbrace :: r ∧ ∀ c ∈ n, isNameBody c = true := by
  intro l
  induction l with
  | nil =>
    intro n r h
    rw [show takeName [] = none from rfl] at h
    cases h
  | cons c rest ih =>
    intro n r h
    rw [takeName] at h
    by_cases hc : isNameBody c = true
    · rw [if_pos hc] at h
      cases htn : takeName rest with
      | none => rw [htn] at h; cases h
      | some p =>
        obtain ⟨n', r'⟩ := p
        rw [htn] at h
        simp only [Option.map_some', Option.some.injEq, Prod.mk.injEq] at h
        obtain ⟨h1, h2⟩ := h
        subst h1
        subst h2
        obtain ⟨he, hchars⟩ := ih n' _ htn
        constructor
        · rw [he]; rfl
        · intro x hx
          rcases List.mem_cons.mp hx with hx | hx
          · exact hx ▸ hc
          · exact hchars x hx
    · rw [if_neg hc] at h
      by_cases hcb : c = rbrace
      · rw [if_pos hcb] at h
        cases rest with
        | nil =>
          rw [show takeClose [] = none from rfl] at h
          cases h
        | cons r2 rest2 =>
          rw [takeClose] at h
          by_cases hr2 : r2 = rbrace
          · rw [if_pos hr2] at h
            simp only [Option.some.injEq, Prod.mk.injEq] at h
            obtain ⟨h1, h2⟩ := h
            subst h1
            subst h2
            subst hcb
            subst hr2
            exact ⟨rfl, by intro x hx; cases hx⟩
          · rw [if_neg hr2] at h; cases h
      · rw [if_neg hcb] at h; cases h

/-- A well-formed placeholder name: `[A-Z_][A-Z0-9_]*`. -/
def validPhName (n : GStr) : Prop :=
  match n with
  | [] => False
  | c :: rest => isNameStart c = true ∧ ∀ x ∈ rest, isNameBody x = true

theorem parseToken_split (l n r : List Char)
    (h : parseToken l = some (n, r)) :
    l = n ++ rbrace :: rbrace :: r ∧ validPhName n := by
  cases l with
  | nil =>
    rw [show parseToken [] = none from rfl] at h
    cases h
  | cons c rest =>
    rw [parseToken] at h
    by_cases hc : isNameStart c = true
    · rw [if_pos hc] at h
      cases htn : takeName rest with
      | none => rw [htn] at h; cases h
      | some p =>
        obtain ⟨n', r'⟩ := p
        rw [htn] at h
        simp only [Option.map_some', Option.some.injEq, Prod.mk.injEq] at h
        obtain ⟨h1, h2⟩ := h
        subst h1
        subst h2
        obtain ⟨he, hchars⟩ := takeName_split rest n' _ htn
        refine ⟨by rw [he]; rfl, hc, hchars⟩
    · rw [if_neg hc] at h; cases h

theorem parseToken_lt (l n r : List Char)
    (h : parseToken l = some (n, r)) : r.length < l.length := by
  obtain ⟨heq, -⟩ := parseToken_split l n r h
  subst heq
  simp only [List.length_append, List.length_cons]
  omega

/-- One element of the tokenization of an input string: a literal
character outside any match, or a placeholder match with its name. -/
inductive WToken where
  | lit (c : Char)
  | ph (name : List Char)
deriving DecidableEq

/-- Tokenize the input by the regex's leftmost-match scan: at each
position try to match `\x7b\x7bNAME\x7d\x7d`; on failure emit one
literal character and resume at the next position. -/
def tokenize : List Char → List WToken
  | [] => []
  | c :: rest =>
    if c = lbrace then
      match rest with
      | c2 :: rest2 =>
        if c2 = lbrace then
          match hp : parseToken rest2 with
          | some (name, rem) => .ph name :: tokenize rem
          | none => .lit c :: tokenize (c2 :: rest2)
        else .lit c :: tokenize (c2 :: rest2)
      | [] => [.lit c]
    else .lit c :: tokenize rest
termination_by l => l.length
decreasing_by
  · have := parseToken_lt rest2 name rem hp
    simp only [List.length_cons]
    omega
  · simp only [List.length_cons]; omega
  · simp only [List.length_cons]; omega
  · simp only [List.length_cons]; omega

/-- The executor's variable map (`ExecutionContext.Variables`). -/
def varLookup (m : List (GStr × GStr)) (k : GStr) : Option GStr :=
  match m with
  | [] => none
  | (k₀, v) :: rest => if k₀ = k then some v else varLookup rest k

/-- `strings.ReplaceAll(s, squote, squote backslash squote squote)` —
the body of `shellEscape`. -/
def escQuotes : List Char → List Char
  | [] => []
  | c :: rest =>
    if c = squote then squote :: bslash :: squote :: squote :: escQuotes rest
    else c :: escQuotes rest

/-- `shellEscape` (executor.go): wrap in single quotes with embedded
single quotes escaped. -/
def shellEscape (v : GStr) : GStr :=
  squote :: (escQuotes v ++ [squote])

/-- The raw text a token stands for in the input. -/
def tokenText : WToken → List Char
  | .lit c => [c]
  | .ph name => lbrace :: lbrace :: (name ++ [rbrace, rbrace])

/-- The replacement callback of `replaceVariables`: a bound placeholder
becomes the shell-escaped value, an unbound one stays verbatim, and
characters outside matches are copied unchanged. -/
def renderToken (vars : List (GStr × GStr)) : WToken → List Char
  | .lit c => [c]
  | .ph name =>
    match varLookup vars name with
    | some v => shellEscape v
    | none => lbrace :: lbrace :: (name ++ [rbrace, rbrace])

/-- `Executor.replaceVariables` (executor.go): the regex replacement as
a direct scan — find each leftmost match, substitute the callback's
result, copy everything else. -/
def replaceVariables (vars : List (GStr × GStr)) : List Char → List Char
  | [] => []
  | c :: rest =>
    if c = lbrace then
      match rest with
      | c2 :: rest2 =>
        if c2 = lbrace then
          match hp : parseToken rest2 with
          | some (name, rem) =>
            (match varLookup vars name with
             | some v => shellEscape v
             | none => lbrace :: lbrace :: (name ++ [rbrace, rbrace])) ++
              replaceVariables vars rem
          | none => c :: replaceVariables vars (c2 :: rest2)
        else c :: replaceVariables vars (c2 :: rest2)
      | [] => [c]
    else c :: replaceVariables vars rest
termination_by l => l.length
decreasing_by
  · have := parseToken_lt rest2 name rem hp
    simp only [List.length_cons]
    omega
  · simp only [List.length_cons]; omega
  · simp only [List.length_cons]; omega
  · simp only [List.length_cons]; omega

theorem mapLookup_some_iff_mem (m : List (GStr × Converter)) (k : GStr) :
    (∃ c, mapLookup m k = some c) ↔ k ∈ m.map Prod.fst := by
  induction m with
  | nil => simp [mapLookup]
  | cons p rest ih =>
    obtain ⟨k₀, v⟩ := p
    by_cases hk : k₀ = k
    · subst hk
      constructor
      · intro _
        exact List.mem_cons_self _ _
      · intro _
        refine ⟨v, ?_⟩
        rw [mapLookup, if_pos rfl]
    · constructor
      · rintro ⟨c, hc⟩
        rw [mapLookup, if_neg hk] at hc
        exact List.mem_cons_of_mem _ (ih.mp ⟨c, hc⟩)
      · intro hmem
        rcases List.mem_cons.mp hmem with h | h
        · exact absurd h.symm hk
        · obtain ⟨c, hc⟩ := ih.mpr h
          refine ⟨c, ?_⟩
          rw [mapLookup, if_neg hk]
          exact hc

theorem findConverter_cons_none {s : RegistryState} {path mime n₀ : GStr}
    {rest : List GStr} (hl : mapLookup s.registry n₀ = none) :
    findConverter (n₀ :: rest) s path mime =
      findConverter rest s path mime := by
  rw [findConverter, hl]

theorem findConverter_cons_some {s : RegistryState} {path mime n₀ : GStr}
    {rest : List GStr} {c₀ : Converter}
    (hl : mapLookup s.registry n₀ = some c₀) :
    findConverter (n₀ :: rest) s path mime =
      if n₀ ∈ s.disabled then findConverter rest s path mime
      else if c₀.canConvert path mime then some c₀
      else findConverter rest s path mime := by
  rw [findConverter, hl]

theorem findConverter_some_iff (order : List GStr) (s : RegistryState)
    (path mime : GStr) :
    (∃ c, findConverter order s path mime = some c) ↔
      ∃ n ∈ order, ∃ c, enabledMatch s path mime n c := by
  induction order with
  | nil => simp [findConverter]
  | cons n₀ rest ih =>
    have cons_case :
        (∃ c, findConverter rest s path mime = some c) →
        ∃ n ∈ n₀ :: rest, ∃ c, enabledMatch s path mime n c := by
      intro h
      obtain ⟨n, hn, hc⟩ := ih.mp h
      exact ⟨n, List.mem_cons_of_mem _ hn, hc⟩
    cases hl : mapLookup s.registry n₀ with
    | none =>
      rw [findConverter_cons_none hl]
      constructor
      · intro h; exact cons_case (ih.mpr (ih.mp h))
      · rintro ⟨n, hn, c, hc⟩
        rcases List.mem_cons.mp hn with h | h
        · subst h
          rw [hc.1] at hl
          cases hl
        · exact ih.mpr ⟨n, h, c, hc⟩
    | some c₀ =>
      rw [findConverter_cons_some hl]
      by_cases hdis : n₀ ∈ s.disabled
      · rw [if_pos hdis]
        constructor
        · intro h; exact cons_case h
        · rintro ⟨n, hn, c, hc⟩
          rcases List.mem_cons.mp hn with h | h
          · subst h; exact absurd hdis hc.2.1
          · exact ih.mpr ⟨n, h, c, hc⟩
      · rw [if_neg hdis]
        by_cases hcan : c₀.canConvert path mime = true
        · rw [if_pos hcan]
          constructor
          · intro _
            exact ⟨n₀, List.mem_cons_self _ _, c₀, hl, hdis, hcan⟩
          · intro _; exact ⟨c₀, rfl⟩
        · rw [if_neg hcan]
          constructor
          · intro h; exact cons_case h
          · rintro ⟨n, hn, c, hc⟩
            rcases List.mem_cons.mp hn with h | h
            · subst h
              obtain ⟨hc1, _, hc3⟩ := hc
              rw [hl] at hc1
              cases hc1
              exact absurd hc3 hcan
            · exact ih.mpr ⟨n, h, c, hc⟩

theorem findConverter_sound (order : List GStr) (s : RegistryState)
    (path mime : GStr) (c : Converter)
    (h : findConverter order s path mime = some c) :
    ∃ n ∈ order, enabledMatch s path mime n c := by
  induction order with
  | nil => simp [findConverter] at h
  | cons n₀ rest ih =>
    cases hl : mapLookup s.registry n₀ with
    | none =>
      rw [findConverter_cons_none hl] at h
      obtain ⟨n, hn, hc⟩ := ih h
      exact ⟨n, List.mem_cons_of_mem _ hn, hc⟩
    | some c₀ =>
      rw [findConverter_cons_some hl] at h
      by_cases hdis : n₀ ∈ s.disabled
      · rw [if_pos hdis] at h
        obtain ⟨n, hn, hc⟩ := ih h
        exact ⟨n, List.mem_cons_of_mem _ hn, hc⟩
      · rw [if_neg hdis] at h
        by_cases hcan : c₀.canConvert path mime = true
        · rw [if_pos hcan] at h
          cases h
          exact ⟨n₀, List.mem_cons_self _ _, hl, hdis, hcan⟩
        · rw [if_neg hcan] at h
          obtain ⟨n, hn, hc⟩ := ih h
          exact ⟨n, List.mem_cons_of_mem _ hn, hc⟩

/-- C4 amended: for any iteration order of the registry map, `find`
returns a registered, enabled converter whose `can_convert` accepts the
path whenever at least one such entry exists, and returns the
NoConverter error (`none`) when none does.  Which matching converter is
returned depends on the iteration order, and Go randomizes the order of
each `range` over a map, so two calls within one process need not agree
(see `findConverter_not_deterministic`). -/
theorem findConverter_enabled_match (order : List GStr) (s : RegistryState)
    (path mime : GStr)
    (horder : order.Perm (s.registry.map Prod.fst)) :
    (∀ c, findConverter order s path mime = some c →
      ∃ n, enabledMatch s path mime n c) ∧
    ((∃ n c, enabledMatch s path mime n c) ↔
      ∃ c, findConverter order s path mime = some c) := by
  constructor
  · intro c hc
    obtain ⟨n, _, hm⟩ := findConverter_sound order s path mime c hc
    exact ⟨n, hm⟩
  · rw [findConverter_some_iff]
    constructor
    · rintro ⟨n, c, hc⟩
      refine ⟨n, ?_, c, hc⟩
      rw [horder.mem_iff]
      exact (mapLookup_some_iff_mem s.registry n).mp ⟨c, hc.1⟩
    · rintro ⟨n, _, c, hc⟩; exact ⟨n, c, hc⟩

/-- C4 counterexample: with two enabled converters that both accept the
file, the result of `FindConverter` depends on the map iteration order.
Both orders below are iteration orders of the same registry map (each is
a permutation of its key set), yet they yield different converters, so
two calls of `find` with the same registry state and arguments need not
return the same converter. -/
theorem findConverter_not_deterministic :
    [['a'], ['b']].Perm (regAB.registry.map Prod.fst) ∧
    [['b'], ['a']].Perm (regAB.registry.map Prod.fst) ∧
    (findConverter [['a'], ['b']] regAB ['p'] []).map Converter.name =
      some ['a'] ∧
    (findConverter [['b'], ['a']] regAB ['p'] []).map Converter.name =
      some ['b'] ∧
    findConverter [['a'], ['b']] regAB ['p'] [] ≠
      findConverter [['b'], ['a']] regAB ['p'] [] := by
  have h1 : (findConverter [['a'], ['b']] regAB ['p'] []).map Converter.name =
      some ['a'] := by decide
  have h2 : (findConverter [['b'], ['a']] regAB ['p'] []).map Converter.name =
      some ['b'] := by decide
  refine ⟨by decide, by decide, h1, h2, ?_⟩
  intro h
  rw [congrArg (Option.map Converter.name) h, h2] at h1
  cases h1

/-- C4 witness: the amended theorem applied to the concrete two-entry
registry with a concrete iteration order. -/
theorem findConverter_enabled_match_witness :
    (∀ c, findConverter [['a'], ['b']] regAB ['p'] [] = some c →
      ∃ n, enabledMatch regAB ['p'] [] n c) ∧
    ((∃ n c, enabledMatch regAB ['p'] [] n c) ↔
      ∃ c, findConverter [['a'], ['b']] regAB ['p'] [] = some c) :=
  findConverter_enabled_match [['a'], ['b']] regAB ['p'] [] (by decide)

/-- The watcher emits only when the fresh sample repeats the stored
`(size, mtime)` pair, i.e. two successive samples agree in both. -/
theorem tickPending_emit_iff (delay now : Int)
    (st : Option (Int × Int)) (pf : PendingFile) :
    tickPending delay now st pf = .emit ↔
      ¬ now - pf.firstSeen < delay ∧ st = some (pf.lastSize, pf.lastModTime) := by
  by_cases hw : now - pf.firstSeen < delay
  · simp [tickPending, hw]
  · cases st with
    | none => simp [tickPending, hw]
    | some p =>
      obtain ⟨sz, mt⟩ := p
      by_cases he : sz = pf.lastSize ∧ mt = pf.lastModTime
      · simp [tickPending, hw, he, he.1, he.2]
      · simp only [tickPending, if_neg hw, if_neg he]
        constructor
        · intro h; cases h
        · rintro ⟨-, h⟩
          rw [Option.some_inj, Prod.mk.injEq] at h
          exact absurd ⟨h.1, h.2⟩ he

/-- A file that disappears (stat failure past the stability delay) is
dropped from the pending set, never emitted. -/
theorem tickPending_disappear (delay now : Int) (pf : PendingFile)
    (h : ¬ now - pf.firstSeen < delay) :
    tickPending delay now none pf = .drop := by
  simp [tickPending, h]

theorem ticksEmit_never_aux (delay : Int) :
    ∀ (samples : List (Int × Option (Int × Int))) (pf : PendingFile)
      (l : List Int), pf.lastSize ∈ l →
      (l ++ sampleSizes samples).Pairwise (· ≠ ·) →
      ticksEmit delay pf samples = false := by
  intro samples
  induction samples with
  | nil => intro pf l _ _; rfl
  | cons sample rest ih =>
    intro pf l hmem hpw
    obtain ⟨now, st⟩ := sample
    rw [ticksEmit]
    by_cases hw : now - pf.firstSeen < delay
    · have hstep : tickPending delay now st pf = .keep pf := by
        simp [tickPending, hw]
      rw [hstep]
      apply ih pf l hmem
      apply hpw.sublist
      cases st with
      | none => simp [sampleSizes]
      | some p =>
        have hsz : sampleSizes ((now, some p) :: rest) =
            p.1 :: sampleSizes rest := by
          simp [sampleSizes]
        rw [hsz]
        exact (List.sublist_cons_self p.1 (sampleSizes rest)).append_left l
    · cases st with
      | none =>
        rw [tickPending_disappear delay now pf hw]
      | some p =>
        obtain ⟨sz, mt⟩ := p
        have hsz : sampleSizes ((now, some (sz, mt)) :: rest) =
            sz :: sampleSizes rest := by
          simp [sampleSizes]
        rw [hsz] at hpw
        have hne : pf.lastSize ≠ sz :=
          (List.pairwise_append.mp hpw).2.2 _ hmem sz (by simp)
        have he : ¬ (sz = pf.lastSize ∧ mt = pf.lastModTime) := by
          intro h; exact hne h.1.symm
        have hstep : tickPending delay now (some (sz, mt)) pf =
            .keep { pf with lastSize := sz, lastModTime := mt } := by
          simp [tickPending, hw, he]
        rw [hstep]
        apply ih _ (l ++ [sz]) (by simp)
        rw [List.append_assoc]
        simpa using hpw

/-- The watcher never emits a stable-file event for a file whose size
differs at every sample (each reported size distinct from the stored
initial size and from every other sample's size), no matter how many
ticks elapse. -/
theorem ticksEmit_never_of_changing (delay : Int) (pf : PendingFile)
    (samples : List (Int × Option (Int × Int)))
    (h : (pf.lastSize :: sampleSizes samples).Pairwise (· ≠ ·)) :
    ticksEmit delay pf samples = false :=
  ticksEmit_never_aux delay samples pf [pf.lastSize] (by simp) (by simpa using h)

/-- C6: `utils.WaitFileStable` contradicts the stability rule.  For a
file whose size differs on every one of the five samples (and which
never disappears), the function exhausts its five cycles and returns
nil, i.e. the file is judged stable — although no two successive stat
samples agreed; modification times are never consulted at all (the loop
reads only sizes).  The watcher's own tick does satisfy the rule
(`tickPending_emit_iff`, `tickPending_disappear`,
`ticksEmit_never_of_changing`). -/
theorem waitFileStable_changing_judged_stable :
    (∀ i, i < 5 → growingStat i ≠ growingStat (i + 1)) ∧
    (∀ i, i < 5 → growingStat i ≠ none) ∧
    waitFileStable growingStat = .ok () := by
  refine ⟨by decide, by decide, rfl⟩

theorem chunkify_join (n : Nat) (hn : 0 < n) :
    ∀ (k : Nat) (l : List Nat), l.length ≤ k → (chunkify n l).flatten = l := by
  have hne : ¬ n = 0 := Nat.pos_iff_ne_zero.mp hn
  intro k
  induction k with
  | zero =>
    intro l h
    have : l = [] := List.eq_nil_of_length_eq_zero (Nat.le_zero.mp h)
    subst this
    rw [chunkify, dif_neg hne]
    rfl
  | succ k ih =>
    intro l h
    cases l with
    | nil =>
      rw [chunkify, dif_neg hne]
      rfl
    | cons x rest =>
      rw [chunkify, dif_neg hne, List.flatten_cons]
      rw [ih ((x :: rest).drop n) ?hlen]
      · exact List.take_append_drop n (x :: rest)
      case hlen =>
        simp only [List.length_drop, List.length_cons]
        simp only [List.length_cons] at h
        omega

theorem hexDigit_mem (n : Nat) : hexDigit n ∈ hexDigits := by
  have h16 : n % 16 < 16 := Nat.mod_lt _ (by norm_num)
  rw [hexDigit]
  set m := n % 16 with hm
  clear_value m
  interval_cases m <;> decide

theorem hexEncode_lowercase (bytes : List Nat) :
    ∀ c ∈ hexEncode bytes, c ∈ hexDigits := by
  intro c hc
  rw [hexEncode, List.mem_flatMap] at hc
  obtain ⟨b, _, hc⟩ := hc
  simp only [List.mem_cons, List.not_mem_nil, or_false] at hc
  rcases hc with h | h <;> exact h ▸ hexDigit_mem _

/-- C7: the streaming content hash does not depend on the chunk size:
for any digest engine and any two positive chunk sizes, `CalculateMD5`
yields the same result, which is the digest of the whole content
hex-encoded; `MD5File` agrees; and every character of the result is a
lowercase hex digit. -/
theorem md5_chunk_size_independent (md5 : List Nat → List Nat)
    (content : List Nat) (a b : Int) (ha : 0 < a) (hb : 0 < b) :
    calculateMD5 md5 content a = calculateMD5 md5 content b ∧
    calculateMD5 md5 content a = hexEncode (md5 content) ∧
    md5File md5 content a = some (hexEncode (md5 content)) ∧
    ∀ c ∈ calculateMD5 md5 content a, c ∈ hexDigits := by
  have key : ∀ (x : Int), 0 < x →
      calculateMD5 md5 content x = hexEncode (md5 content) := by
    intro x hx
    have hxle : ¬ x ≤ 0 := by omega
    have hpos : 0 < x.toNat := by omega
    rw [calculateMD5]
    simp only [if_neg hxle]
    rw [chunkify_join x.toNat hpos content.length content le_rfl]
  have hka := key a ha
  refine ⟨hka.trans (key b hb).symm, hka, ?_, ?_⟩
  · have hale : ¬ a ≤ 0 := by omega
    have hpos : 0 < a.toNat := by omega
    rw [md5File, if_neg hale,
      chunkify_join a.toNat hpos content.length content le_rfl]
  · rw [hka]
    exact hexEncode_lowercase _

/-- C7 witness: both helpers at chunk sizes 1 and 3 on a two-byte
content, with the identity as digest engine. -/
theorem md5_chunk_size_independent_witness :
    calculateMD5 (fun l => l) [0, 255] 1 = calculateMD5 (fun l => l) [0, 255] 3 ∧
    calculateMD5 (fun l => l) [0, 255] 1 = hexEncode [0, 255] :=
  ⟨(md5_chunk_size_independent (fun l => l) [0, 255] 1 3
      (by decide) (by decide)).1,
   (md5_chunk_size_independent (fun l => l) [0, 255] 1 3
      (by decide) (by decide)).2.1⟩

theorem extScan_append_dot (r : List Char) :
    ∀ l : List Char, '.' ∉ l → extScan (l ++ '.' :: r) = some (l ++ ['.']) := by
  intro l
  induction l with
  | nil => intro _; rw [List.nil_append, extScan, if_pos rfl]; rfl
  | cons c rest ih =>
    intro h
    have hc : ¬ c = '.' := fun hcc => h (hcc ▸ List.mem_cons_self _ _)
    rw [List.cons_append, extScan, if_neg hc,
      ih (fun hm => h (List.mem_cons_of_mem _ hm))]
    rfl

theorem extGo_dot_ext (name ext : GStr) (hext : '.' ∉ ext) :
    extGo (name ++ '.' :: ext) = '.' :: ext := by
  have hrev : (name ++ '.' :: ext).reverse =
      ext.reverse ++ '.' :: name.reverse := by
    rw [List.reverse_append, List.reverse_cons, List.append_assoc]
    rfl
  have hmem : '.' ∉ ext.reverse := fun h => hext (List.mem_reverse.mp h)
  rw [extGo, hrev, extScan_append_dot _ _ hmem]
  simp

theorem trimSuffixG_append (stem suffix : GStr) :
    trimSuffixG (stem ++ suffix) suffix = stem := by
  have hsuf : hasSuffixG (stem ++ suffix) suffix = true := by
    rw [hasSuffixG, decide_eq_true_eq]
    exact List.suffix_append stem suffix
  rw [trimSuffixG, if_pos hsuf]
  have hlen : (stem ++ suffix).length - suffix.length = stem.length := by
    simp
  rw [hlen]
  exact List.take_left stem suffix

theorem baseP_concat (l : List GStr) (b : GStr) : baseP (l ++ [b]) = b := by
  induction l with
  | nil => rfl
  | cons x rest ih =>
    cases rest with
    | nil => rfl
    | cons y t => exact ih

/-- C2 amended, derivation part: for a source `dir/sub/name.ext` (with a
dot-free extension) and target extension `T`, both derivation functions
produce `dir/T/name.T`; and when a file already exists at the derived
destination, the duplicated-tree converter renames to
`dir/T/name_<ts>.heic` — a timestamp suffix before the extension — which
differs from the existing destination, so that file is not overwritten.
(The built-in JPEG2HEIC pipeline lacks this rename: see
`jpeg2heic_overwrite_counterexample`.) -/
theorem output_path_derivation (dir : List GStr) (sub name ext ts : GStr)
    (hext : '.' ∉ ext) :
    (∀ T : GStr, generateOutputPath (dir ++ [sub, name ++ '.' :: ext]) T =
      dir ++ [T, name ++ '.' :: T]) ∧
    targetHEICPath (dir ++ [sub, name ++ '.' :: ext]) =
      dir ++ [heicStr, name ++ '.' :: heicStr] ∧
    (∀ stem : GStr,
      resolveFinalPath true ts (dir ++ [heicStr, stem ++ '.' :: heicStr]) =
        dir ++ [heicStr, stem ++ '_' :: (ts ++ '.' :: heicStr)] ∧
      resolveFinalPath true ts (dir ++ [heicStr, stem ++ '.' :: heicStr]) ≠
        dir ++ [heicStr, stem ++ '.' :: heicStr]) := by
  have hsplit : dir ++ [sub, name ++ '.' :: ext] =
      (dir ++ [sub]) ++ [name ++ '.' :: ext] := by
    rw [List.append_assoc]; rfl
  have hbase : baseP (dir ++ [sub, name ++ '.' :: ext]) = name ++ '.' :: ext := by
    rw [hsplit, baseP_concat]
  have hdir : dirP (dir ++ [sub, name ++ '.' :: ext]) = dir ++ [sub] := by
    rw [hsplit, dirP, List.dropLast_concat]
  have hdir2 : dirP (dir ++ [sub]) = dir := by
    rw [dirP, List.dropLast_concat]
  have htrim : trimSuffixG (name ++ '.' :: ext)
      (extGo (name ++ '.' :: ext)) = name := by
    rw [extGo_dot_ext name ext hext]
    exact trimSuffixG_append name ('.' :: ext)
  have hgen : ∀ T : GStr,
      generateOutputPath (dir ++ [sub, name ++ '.' :: ext]) T =
        dir ++ [T, name ++ '.' :: T] := by
    intro T
    rw [generateOutputPath]
    rw [hbase, hdir, hdir2, htrim]
    rw [List.append_assoc]
    rfl
  refine ⟨hgen, ?_, ?_⟩
  · rw [targetHEICPath]
    rw [hbase, hdir, hdir2, htrim]
    rw [List.append_assoc]
    rfl
  · intro stem
    have hsplit2 : dir ++ [heicStr, stem ++ '.' :: heicStr] =
        (dir ++ [heicStr]) ++ [stem ++ '.' :: heicStr] := by
      rw [List.append_assoc]; rfl
    have hbase2 : baseP (dir ++ [heicStr, stem ++ '.' :: heicStr]) =
        stem ++ '.' :: heicStr := by
      rw [hsplit2, baseP_concat]
    have hdirx : dirP (dir ++ [heicStr, stem ++ '.' :: heicStr]) =
        dir ++ [heicStr] := by
      rw [hsplit2, dirP, List.dropLast_concat]
    have hheic : '.' ∉ heicStr := by decide
    have htrim2 : trimSuffixG (stem ++ '.' :: heicStr)
        (extGo (stem ++ '.' :: heicStr)) = stem := by
      rw [extGo_dot_ext stem heicStr hheic]
      exact trimSuffixG_append stem ('.' :: heicStr)
    have hres : resolveFinalPath true ts (dir ++ [heicStr, stem ++ '.' :: heicStr]) =
        dir ++ [heicStr, stem ++ '_' :: (ts ++ '.' :: heicStr)] := by
      rw [resolveFinalPath, if_pos rfl, hbase2, hdirx, htrim2]
      rw [List.append_assoc]
      rfl
    refine ⟨hres, ?_⟩
    rw [hres]
    intro h
    have hAB : stem ++ '_' :: (ts ++ '.' :: heicStr) =
        stem ++ '.' :: heicStr := by
      have h1 : [heicStr, stem ++ '_' :: (ts ++ '.' :: heicStr)] =
          [heicStr, stem ++ '.' :: heicStr] :=
        List.append_cancel_left h
      simp only [List.cons.injEq, and_true, true_and] at h1
      exact h1
    have hlen := congrArg List.length hAB
    simp only [List.length_append, List.length_cons, heicStr,
      List.length_nil] at hlen
    omega

/-- C2 witness: the amended derivation at `/w/a/b/c/photo.jpg`, target
`heic`, timestamp `T1`. -/
theorem output_path_derivation_witness :
    generateOutputPath
        [['w'], ['a'], ['b'], ['c'], ['p', 'h', 'o', 't', 'o', '.', 'j', 'p', 'g']]
        heicStr =
      [['w'], ['a'], ['b'], heicStr,
        ['p', 'h', 'o', 't', 'o'] ++ '.' :: heicStr] :=
  (output_path_derivation [['w'], ['a'], ['b']] ['c']
    ['p', 'h', 'o', 't', 'o'] ['j', 'p', 'g'] ['T', '1'] (by decide)).1 heicStr

/-- C2 counterexample: in the built-in JPEG2HEIC pipeline the write
target for an already-existing destination is the destination itself —
no timestamp suffix is inserted, the existing file is overwritten —
whereas the claim requires a suffixed, distinct path (which only the
duplicated-tree converter produces, cf. `resolveFinalPath`). -/
theorem jpeg2heic_overwrite_counterexample :
    jpeg2heicWritePath true
        [['a'], heicStr, ['p'] ++ '.' :: heicStr] =
      [['a'], heicStr, ['p'] ++ '.' :: heicStr] ∧
    resolveFinalPath true ['T', '1']
        [['a'], heicStr, ['p'] ++ '.' :: heicStr] ≠
      [['a'], heicStr, ['p'] ++ '.' :: heicStr] := by
  constructor
  · rfl
  · decide

/-- C1: when the index holds a `success` entry for the path whose stored
hash equals the freshly computed hash, `processTask` appends exactly one
`skipped` task record (carrying the stored converter name) and returns:
the index is not upserted, no destination file is created, and the
converter is never invoked. -/
theorem worker_skip_unchanged_content (env : ConvEnv) (s : WState)
    (path : WPath) (e : FileIndex) (h : GStr)
    (hmd5 : env.md5Result = some h)
    (hdb : env.dbGetFails = false)
    (hidx : idxLookup s.index path = some e)
    (hst : e.status = successStr)
    (hhash : e.fileMD5 = h) :
    processTask env s path =
      ({ s with history := s.history ++
          [{ filePath := path, converterName := e.converterName,
             status := skippedStr, errorMessage := [],
             durationMs := env.durMs,
             consoleOutput := ("Task skipped: ").data ++
               ("File already processed successfully").data }] }, false) ∧
    (processTask env s path).1.index = s.index ∧
    (processTask env s path).1.destFiles = s.destFiles ∧
    (processTask env s path).2 = false := by
  have hskip : alreadyProcessed (idxLookup s.index path) h = true := by
    rw [hidx, alreadyProcessed]
    simp [hst, hhash]
  have hmain : processTask env s path =
      ({ s with history := s.history ++
          [{ filePath := path, converterName := e.converterName,
             status := skippedStr, errorMessage := [],
             durationMs := env.durMs,
             consoleOutput := ("Task skipped: ").data ++
               ("File already processed successfully").data }] }, false) := by
    have hskip2 : alreadyProcessed (some e) h = true := by
      rw [alreadyProcessed]
      simp [hst, hhash]
    rw [processTask, hmd5]
    simp only [hdb, Bool.false_eq_true, if_false, hidx, hskip2,
      eq_self_iff_true, if_true]
    rfl
  refine ⟨hmain, ?_, ?_, ?_⟩ <;> rw [hmain]

/-- C1 witness: a concrete state with a successful, hash-matching index
entry for the path; re-processing records one skipped task and changes
nothing else. -/
theorem worker_skip_unchanged_content_witness :
    processTask envSkip sSucc [['p']] =
      ({ sSucc with history := [skippedRec] }, false) :=
  (worker_skip_unchanged_content envSkip sSucc [['p']] eSucc ['h'] rfl rfl
    (by decide) (by decide) (by decide)).1

theorem qStep_nodup {s : QueueState} (h : s.enqueued.Nodup) (op : QOp) :
    (qStep s op).enqueued.Nodup := by
  cases op with
  | enq id =>
    simp only [qStep, qEnqueue]
    by_cases hacc : s.accepting = true
    · by_cases hmem : id ∈ s.enqueued
      · simp [hacc, hmem, h]
      · simp [hacc, hmem, List.nodup_append, h]
    · simp [hacc, h]
  | deq id => exact h.filter _
  | stop => exact h

theorem qRun_nodup (ops : List QOp) : (qRun ops).enqueued.Nodup := by
  suffices h : ∀ (l : List QOp) (s : QueueState), s.enqueued.Nodup →
      (l.foldl qStep s).enqueued.Nodup by
    exact h ops newQueue (by simp [newQueue])
  intro l
  induction l with
  | nil => intro s hs; exact hs
  | cons op rest ih => intro s hs; exact ih _ (qStep_nodup hs op)

/-- C10: `Enqueue(id)` returns `false` and leaves the state unchanged
when the queue has stopped accepting or when `id` is already pending;
otherwise it returns `true`, recording `id` as pending and pushing it on
the channel.  Consequently, in every state reachable by a sequence of
`Enqueue` / `Dequeued` / `StopAccepting` operations, each ID is pending
at most once and `Len` equals the number of distinct pending IDs. -/
theorem queue_no_duplicate_ids :
    (∀ (s : QueueState) (id : Nat), s.accepting = false ∨ id ∈ s.enqueued →
      qEnqueue s id = (s, false)) ∧
    (∀ (s : QueueState) (id : Nat), s.accepting = true → id ∉ s.enqueued →
      qEnqueue s id =
        ({ s with enqueued := s.enqueued ++ [id], ch := s.ch ++ [id] }, true)) ∧
    (∀ ops : List QOp,
      (∀ id, (qRun ops).enqueued.count id ≤ 1) ∧
      qLen (qRun ops) = (qRun ops).enqueued.dedup.length) := by
  refine ⟨?_, ?_, ?_⟩
  · intro s id h
    rcases h with h | h
    · simp [qEnqueue, h]
    · by_cases hacc : s.accepting = true
      · simp [qEnqueue, hacc, h]
      · simp [qEnqueue, hacc]
  · intro s id hacc hmem
    simp [qEnqueue, hacc, hmem]
  · intro ops
    have hnd := qRun_nodup ops
    constructor
    · intro id
      exact List.nodup_iff_count_le_one.mp hnd id
    · simp [qLen, hnd.dedup]

/-- C10 witness: concrete applications — enqueueing an already-pending
ID is refused, and a fresh ID is recorded. -/
theorem queue_no_duplicate_ids_witness :
    qEnqueue { enqueued := [3], accepting := true, ch := [3] } 3 =
      ({ enqueued := [3], accepting := true, ch := [3] }, false) ∧
    qEnqueue { enqueued := [3], accepting := true, ch := [3] } 4 =
      ({ enqueued := [3, 4], accepting := true, ch := [3, 4] }, true) :=
  ⟨queue_no_duplicate_ids.1 _ 3 (Or.inr (by decide)),
   queue_no_duplicate_ids.2.1 _ 4 rfl (by decide)⟩

/-- C8 counterexample: for a name absent from the registry, `IsEnabled`
does not fail with an UnknownConverter error — it has no error path at
all and returns the default answer `true` (`!disabled[name]`). -/
theorem isEnabled_absent_returns_default :
    mapLookup (RegistryState.registry { registry := [], disabled := [] })
        ['n', 'o'] = none ∧
    isEnabled { registry := [], disabled := [] } ['n', 'o'] = true := by
  constructor <;> rfl

/-- C8 amended: `Enable` and `Disable` fail with the converter-not-found
error when the name is not registered; `IsEnabled` performs no registry
check, never fails, and reports any name outside the disabled set —
registered or not — as enabled. -/
theorem enable_disable_absent_fail (s : RegistryState) (name : GStr)
    (habsent : mapLookup s.registry name = none) :
    enable s name = .error () ∧ disable s name = .error () ∧
    (name ∉ s.disabled → isEnabled s name = true) := by
  refine ⟨?_, ?_, ?_⟩
  · simp [enable, habsent]
  · simp [disable, habsent]
  · intro h; simp [isEnabled, h]

/-- C8 witness: the amended statement at a concrete one-entry registry. -/
theorem enable_disable_absent_fail_witness :
    enable regA ['b'] = .error () ∧
    disable regA ['b'] = .error () ∧
    (['b'] ∉ regA.disabled → isEnabled regA ['b'] = true) :=
  enable_disable_absent_fail _ _ (by rfl)

/-- C9: the built-in jpeg2heic converter clamps an out-of-range quality
option (zero, negative, or above 100) to 85 before invoking the encoder,
and passes any quality in 1–100 through unchanged. -/
theorem jpeg2heic_quality_clamp (q : Int) :
    (q ≤ 0 ∨ q > 100 → jpeg2heicEncoderQuality q = 85) ∧
    (1 ≤ q → q ≤ 100 → jpeg2heicEncoderQuality q = q) := by
  constructor
  · intro h; simp [jpeg2heicEncoderQuality, h]
  · intro h1 h2
    have : ¬ (q ≤ 0 ∨ q > 100) := by omega
    simp [jpeg2heicEncoderQuality, this]

/-- C9 witness: quality 0 and 101 are clamped to 85, quality 85 passes
through. -/
theorem jpeg2heic_quality_clamp_witness :
    jpeg2heicEncoderQuality 0 = 85 ∧ jpeg2heicEncoderQuality 101 = 85 ∧
    jpeg2heicEncoderQuality 85 = 85 :=
  ⟨(jpeg2heic_quality_clamp 0).1 (Or.inl (by decide)),
   (jpeg2heic_quality_clamp 101).1 (Or.inr (by decide)),
   (jpeg2heic_quality_clamp 85).2 (by decide) (by decide)⟩

theorem extErrs_all_dotted (exts : List String)
    (h : ∀ e ∈ exts, startsWithDot e = true) :
    ∀ i, extErrs i exts = [] := by
  induction exts with
  | nil => intro i; rfl
  | cons e rest ih =>
    intro i
    rw [extErrs, if_pos (h e (List.mem_cons_self _ _))]
    rw [ih (fun x hx => h x (List.mem_cons_of_mem _ hx)) (i + 1)]
    rfl

/-- C3 counterexample: validating a spec with an empty name, an empty
steps list, and a `can_convert` block with both extensions and run
yields four error messages, not three — the empty name violates both
the name-required rule and the name-pattern rule. -/
theorem validate_four_errors :
    validate specBothCC =
      [msgNameRequired, msgNamePattern, msgCCBoth, msgStepsRequired] ∧
    (validate specBothCC).length = 4 ∧ (validate specBothCC).length ≠ 3 := by
  refine ⟨?_, ?_, ?_⟩ <;> decide

/-- C3 amended: validation accumulates all violations instead of
stopping at the first; for any spec with an empty name, an empty steps
list, and a `can_convert` block specifying both a (well-formed,
dot-prefixed) extensions list and a run command — the other fields being
unexceptional — `Validate` returns exactly four messages, in the stable
source order: name required, name pattern (the empty name violates both
name rules), can_convert both, steps required. -/
theorem validate_accumulates (spec : WorkflowSpec) (cc : CanConvertSpec)
    (hname : spec.name = "")
    (hsteps : spec.steps = [])
    (hcc : spec.canConvert = some cc)
    (hext : ¬ cc.extensions.isEmpty)
    (hextdot : ∀ e ∈ cc.extensions, startsWithDot e = true)
    (hrun : cc.run ≠ "")
    (hcto : 0 ≤ cc.ccTimeout)
    (hrunsOn : spec.runsOn = "" ∨ spec.runsOn = "shell" ∨
      spec.runsOn = "docker")
    (htimeout : 0 ≤ spec.timeout)
    (houts : spec.outputs = []) :
    validate spec =
      [msgNameRequired, msgNamePattern, msgCCBoth, msgStepsRequired] := by
  have hvalid : ¬ isValidName "" = true := by decide
  have hccerrs : canConvertErrs cc = [msgCCBoth] := by
    rw [canConvertErrs]
    rw [if_neg (by simp [hext]), if_pos ⟨hext, hrun⟩, if_pos hext,
      extErrs_all_dotted cc.extensions hextdot 0, if_neg (by omega)]
    rfl
  have hro2 : ¬ ((if spec.runsOn = "" then "shell" else spec.runsOn) ≠ "shell" ∧
      (if spec.runsOn = "" then "shell" else spec.runsOn) ≠ "docker") := by
    rcases hrunsOn with h | h | h <;> simp [h]
  have ht : ¬ spec.timeout < 0 := by omega
  rw [validate, hname, hcc, hsteps, houts]
  simp [hvalid, hro2, ht, hccerrs, stepErrs, outputErrs]
  intro h1 h2
  rcases hrunsOn with h | h | h
  · exact absurd h h1
  · exact absurd h h2
  · rw [if_neg h1, h]

/-- C3 witness: the amended statement at the concrete scenario spec. -/
theorem validate_accumulates_witness :
    validate specBothCC =
      [msgNameRequired, msgNamePattern, msgCCBoth, msgStepsRequired] :=
  validate_accumulates specBothCC
    { extensions := [".png"], run := "true", ccTimeout := 0 }
    rfl rfl rfl (by decide) (by decide) (by decide) (by decide)
    (Or.inl rfl) (by decide) rfl

theorem tokenize_ph {rest2 name rem : List Char}
    (hp : parseToken rest2 = some (name, rem)) :
    tokenize (lbrace :: lbrace :: rest2) = .ph name :: tokenize rem := by
  rw [tokenize.eq_2, if_pos rfl, if_pos rfl]
  split
  · rename_i name' rem' heq
    have h2 := hp.symm.trans heq
    simp only [Option.some.injEq, Prod.mk.injEq] at h2
    obtain ⟨h3, h4⟩ := h2
    rw [← h3, ← h4]
  · rename_i heq
    rw [hp] at heq
    cases heq

theorem tokenize_open_nomatch {rest2 : List Char}
    (hp : parseToken rest2 = none) :
    tokenize (lbrace :: lbrace :: rest2) =
      .lit lbrace :: tokenize (lbrace :: rest2) := by
  rw [tokenize.eq_2, if_pos rfl, if_pos rfl]
  split
  · rename_i name' rem' heq
    rw [hp] at heq
    cases heq
  · rfl

theorem tokenize_open_other {c2 : Char} {rest2 : List Char}
    (h : ¬ c2 = lbrace) :
    tokenize (lbrace :: c2 :: rest2) =
      .lit lbrace :: tokenize (c2 :: rest2) := by
  rw [tokenize.eq_2, if_pos rfl, if_neg h]

theorem tokenize_single : tokenize [lbrace] = [.lit lbrace] := by
  rw [tokenize.eq_3, if_pos rfl]

theorem tokenize_lit {c : Char} (rest : List Char) (h : ¬ c = lbrace) :
    tokenize (c :: rest) = .lit c :: tokenize rest := by
  cases rest with
  | nil => rw [tokenize.eq_3, if_neg h]
  | cons r t => rw [tokenize.eq_2, if_neg h]

theorem rv_ph (vars : List (GStr × GStr)) {rest2 name rem : List Char}
    (hp : parseToken rest2 = some (name, rem)) :
    replaceVariables vars (lbrace :: lbrace :: rest2) =
      renderToken vars (.ph name) ++ replaceVariables vars rem := by
  rw [replaceVariables.eq_2, if_pos rfl, if_pos rfl]
  split
  · rename_i name' rem' heq
    have h2 := hp.symm.trans heq
    simp only [Option.some.injEq, Prod.mk.injEq] at h2
    obtain ⟨h3, h4⟩ := h2
    rw [← h3, ← h4, renderToken]
  · rename_i heq
    rw [hp] at heq
    cases heq

theorem rv_open_nomatch (vars : List (GStr × GStr)) {rest2 : List Char}
    (hp : parseToken rest2 = none) :
    replaceVariables vars (lbrace :: lbrace :: rest2) =
      lbrace :: replaceVariables vars (lbrace :: rest2) := by
  rw [replaceVariables.eq_2, if_pos rfl, if_pos rfl]
  split
  · rename_i name' rem' heq
    rw [hp] at heq
    cases heq
  · rfl

theorem rv_open_other (vars : List (GStr × GStr)) {c2 : Char}
    {rest2 : List Char} (h : ¬ c2 = lbrace) :
    replaceVariables vars (lbrace :: c2 :: rest2) =
      lbrace :: replaceVariables vars (c2 :: rest2) := by
  rw [replaceVariables.eq_2, if_pos rfl, if_neg h]

theorem rv_single (vars : List (GStr × GStr)) :
    replaceVariables vars [lbrace] = [lbrace] := by
  rw [replaceVariables.eq_3, if_pos rfl]

theorem rv_lit (vars : List (GStr × GStr)) {c : Char} (rest : List Char)
    (h : ¬ c = lbrace) :
    replaceVariables vars (c :: rest) = c :: replaceVariables vars rest := by
  cases rest with
  | nil => rw [replaceVariables.eq_3, if_neg h]
  | cons r t => rw [replaceVariables.eq_2, if_neg h]

/-- The tokenization is lossless: concatenating each token's raw text
reproduces the input exactly. -/
theorem tokenize_flatten (l : List Char) :
    (tokenize l).flatMap tokenText = l := by
  induction l using tokenize.induct with
  | case1 => rw [tokenize.eq_1]; rfl
  | case2 rest2 name rem hp ih =>
    rw [tokenize_ph hp, List.flatMap_cons, ih]
    obtain ⟨heq, -⟩ := parseToken_split rest2 name rem hp
    rw [tokenText, heq]
    simp
  | case3 rest2 hp ih =>
    rw [tokenize_open_nomatch hp, List.flatMap_cons, ih]
    rfl
  | case4 c2 rest2 h ih =>
    rw [tokenize_open_other h, List.flatMap_cons, ih]
    rfl
  | case5 =>
    rw [tokenize_single]
    rfl
  | case6 c rest h ih =>
    rw [tokenize_lit rest h, List.flatMap_cons, ih]
    rfl

/-- `replaceVariables` is the callback-rendering of the tokenization. -/
theorem replaceVariables_eq_render (vars : List (GStr × GStr))
    (l : List Char) :
    replaceVariables vars l = (tokenize l).flatMap (renderToken vars) := by
  induction l using tokenize.induct with
  | case1 => rw [replaceVariables.eq_1, tokenize.eq_1]; rfl
  | case2 rest2 name rem hp ih =>
    rw [rv_ph vars hp, tokenize_ph hp, List.flatMap_cons, ih]
  | case3 rest2 hp ih =>
    rw [rv_open_nomatch vars hp, tokenize_open_nomatch hp,
      List.flatMap_cons, ih]
    rfl
  | case4 c2 rest2 h ih =>
    rw [rv_open_other vars h, tokenize_open_other h, List.flatMap_cons, ih]
    rfl
  | case5 =>
    rw [rv_single, tokenize_single]
    rfl
  | case6 c rest h ih =>
    rw [rv_lit vars rest h, tokenize_lit rest h, List.flatMap_cons, ih]
    rfl

/-- Every placeholder token carries a name matching
`[A-Z_][A-Z0-9_]*`. -/
theorem tokenize_ph_names (l : List Char) :
    ∀ name, WToken.ph name ∈ tokenize l → validPhName name := by
  induction l using tokenize.induct with
  | case1 => intro name h; rw [tokenize.eq_1] at h; cases h
  | case2 rest2 nm rem hp ih =>
    intro name h
    rw [tokenize_ph hp] at h
    rcases List.mem_cons.mp h with h | h
    · cases h
      exact (parseToken_split rest2 nm rem hp).2
    · exact ih name h
  | case3 rest2 hp ih =>
    intro name h
    rw [tokenize_open_nomatch hp] at h
    rcases List.mem_cons.mp h with h | h
    · cases h
    · exact ih name h
  | case4 c2 rest2 hne ih =>
    intro name h
    rw [tokenize_open_other hne] at h
    rcases List.mem_cons.mp h with h | h
    · cases h
    · exact ih name h
  | case5 =>
    intro name h
    rw [tokenize_single] at h
    rcases List.mem_cons.mp h with h | h
    · cases h
    · cases h
  | case6 c rest hne ih =>
    intro name h
    rw [tokenize_lit rest hne] at h
    rcases List.mem_cons.mp h with h | h
    · cases h
    · exact ih name h

/-- C5: `replaceVariables` decomposes the input into literal characters
and well-formed placeholder tokens and renders them: the decomposition
is lossless (so all non-placeholder characters are preserved exactly and
any substring not forming a `\x7b\x7b[A-Z_][A-Z0-9_]*\x7d\x7d` token is
returned verbatim); every placeholder's name matches
`[A-Z_][A-Z0-9_]*`; a bound placeholder becomes the value single-quoted
with embedded single quotes escaped; an unbound placeholder is left
untouched; and a literal character renders to itself. -/
theorem replaceVariables_spec (vars : List (GStr × GStr))
    (text : List Char) :
    replaceVariables vars text = (tokenize text).flatMap (renderToken vars) ∧
    (tokenize text).flatMap tokenText = text ∧
    (∀ name, WToken.ph name ∈ tokenize text → validPhName name) ∧
    (∀ name v, varLookup vars name = some v →
      renderToken vars (.ph name) = squote :: (escQuotes v ++ [squote])) ∧
    (∀ name, varLookup vars name = none →
      renderToken vars (.ph name) = tokenText (.ph name)) ∧
    (∀ c, renderToken vars (.lit c) = [c]) := by
  refine ⟨replaceVariables_eq_render vars text, tokenize_flatten text,
    tokenize_ph_names text, ?_, ?_, fun c => rfl⟩
  · intro name v h
    simp [renderToken, h, shellEscape]
  · intro name h
    simp [renderToken, tokenText, h]

end Jpeg2Heif
